import Mathlib

/-
Verification of the MorseCodeGenerator translator (MorseCodeGenerator.hpp).

The C++ class is embedded shallowly:
  - characters are Lean Char (the source operates on ASCII bytes);
  - strings are List Char (String.data is used to write literals);
  - the throwing encoder is embedded with Except Char: the error value is
    the uppercased offending character that the C++ exception message carries;
  - the mutable instance state (message, words, wordIndex) is an explicit
    structure, and the mutating members return the updated structure.
-/

/-- Decidable equality for Except, so that concrete encoder results can be
checked by evaluation. -/
instance {ε : Type} {α : Type} [DecidableEq ε] [DecidableEq α] :
    DecidableEq (Except ε α)
  | Except.ok x, Except.ok y => decidable_of_iff (x = y) (by simp)
  | Except.ok _, Except.error _ => Decidable.isFalse (by simp)
  | Except.error _, Except.ok _ => Decidable.isFalse (by simp)
  | Except.error d, Except.error e => decidable_of_iff (d = e) (by simp)

/-- Whitespace test of the default C locale, used by the istringstream
extraction operator in tokenizeMessage: space, tab, newline, vertical tab,
form feed, carriage return. Stated on code points to ease arithmetic. -/
def isWS (c : Char) : Bool :=
  c.toNat = 32 || c.toNat = 9 || c.toNat = 10 || c.toNat = 11 ||
  c.toNat = 12 || c.toNat = 13

/-- Embedding of std::toupper in the C locale as applied by the source:
lowercase ASCII letters (code points 97 to 122) are shifted down by 32,
every other character is returned unchanged. -/
def asciiToUpper (c : Char) : Char :=
  if 97 ≤ c.toNat ∧ c.toNat ≤ 122 then Char.ofNat (c.toNat - 32) else c

/-- Embedding of MorseCodeGenerator::tokenizeMessage, whose istringstream
loop alternates between skipping whitespace (acc = none) and accumulating
the characters of the current word (acc = some of the reversed word read so
far); each completed word is uppercased, as the for loop of the source does. -/
def tokenizeAux : List Char → Option (List Char) → List (List Char)
  | [], none => []
  | [], some acc => [acc.reverse.map asciiToUpper]
  | c :: rest, none =>
      if isWS c then tokenizeAux rest none else tokenizeAux rest (some [c])
  | c :: rest, some acc =>
      if isWS c then acc.reverse.map asciiToUpper :: tokenizeAux rest none
      else tokenizeAux rest (some (c :: acc))

/-- Embedding of MorseCodeGenerator::tokenizeMessage. -/
def tokenizeMessage (msg : List Char) : List (List Char) :=
  tokenizeAux msg none

/-- Embedding of MorseCodeGenerator::morseTable: the unordered_map from a
supported character to its Morse pattern; absent characters give none. -/
def morseTable (c : Char) : Option (List Char) :=
  match c with
  | 'A' => some (". -".data)
  | 'B' => some ("- . . .".data)
  | 'C' => some ("- . - .".data)
  | 'D' => some ("- . .".data)
  | 'E' => some (".".data)
  | 'F' => some (". . - .".data)
  | 'G' => some ("- - .".data)
  | 'H' => some (". . . .".data)
  | 'I' => some (". .".data)
  | 'J' => some (". - - -".data)
  | 'K' => some ("- . -".data)
  | 'L' => some (". - . .".data)
  | 'M' => some ("- -".data)
  | 'N' => some ("- .".data)
  | 'O' => some ("- - -".data)
  | 'P' => some (". - - .".data)
  | 'Q' => some ("- - . -".data)
  | 'R' => some (". - .".data)
  | 'S' => some (". . .".data)
  | 'T' => some ("-".data)
  | 'U' => some (". . -".data)
  | 'V' => some (". . . -".data)
  | 'W' => some (". - -".data)
  | 'X' => some ("- . . -".data)
  | 'Y' => some ("- . - -".data)
  | 'Z' => some ("- - . .".data)
  | '0' => some ("- - - - -".data)
  | '1' => some (". - - - -".data)
  | '2' => some (". . - - -".data)
  | '3' => some (". . . - -".data)
  | '4' => some (". . . . -".data)
  | '5' => some (". . . . .".data)
  | '6' => some ("- . . . .".data)
  | '7' => some ("- - . . .".data)
  | '8' => some ("- - - . .".data)
  | '9' => some ("- - - - .".data)
  | '.' => some (". - . - . -".data)
  | ',' => some ("- - . . - -".data)
  | ':' => some ("- - - . . .".data)
  | '?' => some (". . - - . .".data)
  | '/' => some ("- . . - .".data)
  | '-' => some ("- . . . . -".data)
  | '(' => some ("- . - - . -".data)
  | ')' => some ("- . - - . -".data)
  | '=' => some ("- . . . -".data)
  | '+' => some (". - . - .".data)
  | '&' => some (". - . . .".data)
  | '\'' => some (". - - - - .".data)
  | '!' => some ("- . - . - -".data)
  | '_' => some (". . - - . -".data)
  | '"' => some (". - . . - .".data)
  | '$' => some (". . . - . . -".data)
  | '@' => some (". - - . - .".data)
  | _ => none

/-- Embedding of MorseCodeGenerator::prosigns: the unordered_map from the
three exact prosign words to their pre-composed patterns. -/
def prosigns (w : List Char) : Option (List Char) :=
  if w = ("AR".data) then some (". - . - .".data)
  else if w = ("SK".data) then some (". . . - . -".data)
  else if w = ("BT".data) then some ("- . . . -".data)
  else none

/-- The letter separator of the source: exactly three ASCII spaces. -/
def sep3 : List Char := [' ', ' ', ' ']

/-- The word separator of the source: exactly seven ASCII spaces. -/
def sep7 : List Char := [' ', ' ', ' ', ' ', ' ', ' ', ' ']

/-- The end-of-message sentinel returned by getNext. -/
def eomString : List Char := "<EOM>".data

/-- Embedding of the per-character loop that both getMessage and getNext
contain verbatim: each character is uppercased and looked up in morseTable
(throwing the uppercased character on a miss), and every pattern after the
first is preceded by the three-space letter separator. The Bool argument is
the firstChar flag of the loop. -/
def encodeChars : List Char → Bool → Except Char (List Char)
  | [], _ => Except.ok []
  | c :: rest, first =>
      match morseTable (asciiToUpper c) with
      | none => Except.error (asciiToUpper c)
      | some p =>
          match encodeChars rest false with
          | Except.error e => Except.error e
          | Except.ok t =>
              Except.ok ((if first then p else sep3 ++ p) ++ t)

/-- Encoding of one token, as performed identically by getMessage and
getNext: a full-token prosign hit returns the prosign pattern, otherwise
the token is encoded character by character. -/
def encodeWord (w : List Char) : Except Char (List Char) :=
  match prosigns w with
  | some p => Except.ok p
  | none => encodeChars w true

/-- Embedding of the word loop of MorseCodeGenerator::getMessage: every
word after the first is preceded by the seven-space word separator. The
Bool argument is the firstWord flag of the loop. -/
def getMessageWords : List (List Char) → Bool → Except Char (List Char)
  | [], _ => Except.ok []
  | w :: rest, firstWord =>
      match encodeWord w with
      | Except.error e => Except.error e
      | Except.ok p =>
          match getMessageWords rest false with
          | Except.error e => Except.error e
          | Except.ok t =>
              Except.ok ((if firstWord then p else sep7 ++ p) ++ t)

/-- The per-instance state of MorseCodeGenerator: the raw message, its
tokenized words, and the cursor wordIndex of the incremental interface. -/
structure MorseCodeGenerator where
  message : List Char
  words : List (List Char)
  wordIndex : Nat
deriving DecidableEq

/-- The default-constructed generator: empty message, no words, cursor 0. -/
def newGenerator : MorseCodeGenerator :=
  { message := [], words := [], wordIndex := 0 }

/-- Embedding of MorseCodeGenerator::setMessage. -/
def setMessage (_g : MorseCodeGenerator) (msg : List Char) :
    MorseCodeGenerator :=
  { message := msg, words := tokenizeMessage msg, wordIndex := 0 }

/-- Embedding of MorseCodeGenerator::clearMessage. -/
def clearMessage (_g : MorseCodeGenerator) : MorseCodeGenerator :=
  { message := [], words := [], wordIndex := 0 }

/-- Embedding of MorseCodeGenerator::getMessage: it re-tokenizes the stored
message field (it does not read the words field or the cursor) and encodes
the words in order. The member is const, so no state is returned. -/
def getMessage (g : MorseCodeGenerator) : Except Char (List Char) :=
  getMessageWords (tokenizeMessage g.message) true

/-- Embedding of MorseCodeGenerator::getNext: past the end it returns the
sentinel and leaves the state untouched; otherwise it reads the word at the
cursor, advances the cursor (before any encoding can fail, matching
words[wordIndex++] of the source), and encodes that word. -/
def getNext (g : MorseCodeGenerator) :
    Except Char (List Char) × MorseCodeGenerator :=
  if h : g.wordIndex < g.words.length then
    (encodeWord (g.words.get ⟨g.wordIndex, h⟩),
     { g with wordIndex := g.wordIndex + 1 })
  else
    (Except.ok eomString, g)

/-- Iterated getNext: the list of the first n results together with the
state after the n calls. -/
def runGetNext : MorseCodeGenerator → Nat → List (Except Char (List Char)) × MorseCodeGenerator
  | g, 0 => ([], g)
  | g, n + 1 =>
      let r := getNext g
      let rest := runGetNext r.2 n
      (r.1 :: rest.1, rest.2)

/-- States reachable from a default-constructed generator by the public
operations. -/
inductive Reachable : MorseCodeGenerator → Prop
  | new : Reachable newGenerator
  | set (g : MorseCodeGenerator) (msg : List Char) :
      Reachable g → Reachable (setMessage g msg)
  | clear (g : MorseCodeGenerator) :
      Reachable g → Reachable (clearMessage g)
  | next (g : MorseCodeGenerator) :
      Reachable g → Reachable (getNext g).2

/-- Spec-side pattern of a single character (defined only on supported
characters; unsupported characters give the empty pattern). -/
def charPattern (c : Char) : List Char :=
  (morseTable (asciiToUpper c)).getD []

/-- Spec-side joining of word or letter patterns with a fixed separator. -/
def joinSep (sep : List Char) : List (List Char) → List Char
  | [] => []
  | [w] => w
  | w :: v :: ws => w ++ sep ++ joinSep sep (v :: ws)

/-- Spec-side encoding of one token, following the specification text: a
prosign key is rendered as its prosign pattern, any other word as its
per-character table patterns joined with the three-space letter separator. -/
def specEncodeWord (w : List Char) : List Char :=
  match prosigns w with
  | some p => p
  | none => joinSep sep3 (w.map charPattern)

/-- A character is supported when its uppercased form is in morseTable. -/
def supportedChar (c : Char) : Bool :=
  (morseTable (asciiToUpper c)).isSome

/-- A token encodes successfully when it is a prosign key or all of its
characters are supported. -/
def wordEncodes (w : List Char) : Bool :=
  (prosigns w).isSome || w.all supportedChar

/-- Spec-side tokenization, following the specification text: the
whitespace-split, uppercased, non-empty words of the input in input order
(whitespace runs collapse, leading and trailing whitespace is dropped). -/
def specTokenize (msg : List Char) : List (List Char) :=
  ((msg.splitOnP isWS).filter (fun w => !w.isEmpty)).map (List.map asciiToUpper)

/-- Char.ofNat evaluates to the given code point below the surrogate range. -/
lemma toNat_ofNat_small {n : Nat} (h : n < 55296) : (Char.ofNat n).toNat = n := by
  simp [Char.ofNat, Nat.isValidChar, h, Char.toNat, Char.ofNatAux, UInt32.toNat,
    BitVec.toNat_ofNatLt]

/-- Code point of the uppercased character. -/
lemma toNat_asciiToUpper (c : Char) :
    (asciiToUpper c).toNat =
      if 97 ≤ c.toNat ∧ c.toNat ≤ 122 then c.toNat - 32 else c.toNat := by
  unfold asciiToUpper
  split
  · next h => exact toNat_ofNat_small (by omega)
  · rfl

/-- Characters at or above code point 65 are not whitespace. -/
lemma isWS_eq_false_of_ge {c : Char} (h : 65 ≤ c.toNat) : isWS c = false := by
  simp only [isWS, Bool.or_eq_false_iff, decide_eq_false_iff_not]
  omega

/-- Uppercasing does not change whether a character is whitespace. -/
lemma isWS_asciiToUpper (c : Char) : isWS (asciiToUpper c) = isWS c := by
  by_cases h : 97 ≤ c.toNat ∧ c.toNat ≤ 122
  · have h1 : (asciiToUpper c).toNat = c.toNat - 32 := by
      rw [toNat_asciiToUpper, if_pos h]
    rw [isWS_eq_false_of_ge (by omega), isWS_eq_false_of_ge (by omega)]
  · unfold asciiToUpper
    rw [if_neg h]

/-- Characters outside the lowercase range are fixed by asciiToUpper. -/
lemma asciiToUpper_of_not {c : Char} (h : ¬(97 ≤ c.toNat ∧ c.toNat ≤ 122)) :
    asciiToUpper c = c := by
  unfold asciiToUpper
  rw [if_neg h]

/-- Uppercasing is idempotent. -/
lemma asciiToUpper_idem (c : Char) :
    asciiToUpper (asciiToUpper c) = asciiToUpper c := by
  by_cases h : 97 ≤ c.toNat ∧ c.toNat ≤ 122
  · refine asciiToUpper_of_not ?_
    rw [toNat_asciiToUpper, if_pos h]
    omega
  · rw [asciiToUpper_of_not h]
    exact asciiToUpper_of_not h

/-- A character whose uppercased form has an uppercase-letter code point is
not whitespace. -/
lemma isWS_eq_false_of_upper {c : Char} (h1 : 65 ≤ (asciiToUpper c).toNat) :
    isWS c = false := by
  rw [← isWS_asciiToUpper]
  exact isWS_eq_false_of_ge h1

/-- The scanner of tokenizeMessage agrees with the specification-side
whitespace splitter, both in gap state and in word-accumulation state. -/
lemma tokenizeAux_spec (l : List Char) :
    (tokenizeAux l none = specTokenize l) ∧
    (∀ acc : List Char, acc ≠ [] → tokenizeAux l (some acc) =
      (((l.splitOnP isWS).modifyHead (fun x => acc.reverse ++ x)).filter
        (fun w => !w.isEmpty)).map (List.map asciiToUpper)) := by
  induction l with
  | nil =>
      constructor
      · simp [tokenizeAux, specTokenize, List.splitOnP_nil]
      · intro acc hacc
        have hne : acc.reverse ≠ [] := by simp [hacc]
        have hemp : acc.reverse.isEmpty = false := List.isEmpty_eq_false.mpr hne
        simp [tokenizeAux, List.splitOnP_nil, List.modifyHead, List.filter, hemp]
  | cons c rest ih =>
      constructor
      · by_cases hc : isWS c
        · simp only [tokenizeAux, hc, if_pos, specTokenize, List.splitOnP_cons,
            if_true, List.filter, List.isEmpty_nil, Bool.not_true]
          exact ih.1
        · have hrec := ih.2 [c] (by simp)
          simp only [tokenizeAux, hc, if_false, Bool.false_eq_true, ite_false]
          rw [hrec]
          simp only [specTokenize, List.splitOnP_cons, hc, Bool.false_eq_true,
            ite_false]
          rfl
      · intro acc hacc
        have hne : acc.reverse ≠ [] := by simp [hacc]
        have hemp : acc.reverse.isEmpty = false := List.isEmpty_eq_false.mpr hne
        by_cases hc : isWS c
        · simp only [tokenizeAux, hc, ite_true]
          rw [ih.1]
          simp only [List.splitOnP_cons, hc, ite_true, List.modifyHead,
            List.filter, List.append_nil, hemp, Bool.not_false, specTokenize]
          rfl
        · have hrec := ih.2 (c :: acc) (by simp)
          simp only [tokenizeAux, hc, Bool.false_eq_true, ite_false]
          rw [hrec]
          simp only [List.splitOnP_cons, hc, Bool.false_eq_true, ite_false,
            List.modifyHead_modifyHead]
          have hfun : (fun x => (c :: acc).reverse ++ x) =
              ((fun x => acc.reverse ++ x) ∘ List.cons c) := by
            funext x
            simp [List.append_assoc]
          rw [hfun]

/-- The istringstream tokenizer of the source equals the whitespace-split,
uppercased, non-empty words of the specification. -/
lemma tokenizeMessage_eq_specTokenize (msg : List Char) :
    tokenizeMessage msg = specTokenize msg :=
  (tokenizeAux_spec msg).1

/-- Joining with a separator before every element, the shape produced by
the loops of the source once the first element has been emitted. -/
def prefixJoin (sep : List Char) : List (List Char) → List Char
  | [] => []
  | w :: ws => sep ++ w ++ prefixJoin sep ws

/-- joinSep splits into a head and a separator-prefixed tail. -/
lemma joinSep_cons (sep w : List Char) (ws : List (List Char)) :
    joinSep sep (w :: ws) = w ++ prefixJoin sep ws := by
  induction ws generalizing w with
  | nil => simp [joinSep, prefixJoin]
  | cons v vs ih =>
      simp only [joinSep, prefixJoin, ih v, List.append_assoc]

/-- A supported character looks up to its charPattern. -/
lemma morseTable_eq_of_supported {c : Char} (h : supportedChar c = true) :
    morseTable (asciiToUpper c) = some (charPattern c) := by
  unfold supportedChar at h
  unfold charPattern
  cases hm : morseTable (asciiToUpper c) with
  | none => rw [hm] at h; simp at h
  | some p => simp [hm]

/-- The character loop in non-first position, on an all-supported word,
produces the separator-prefixed patterns. -/
lemma encodeChars_false_ok {w : List Char} (h : w.all supportedChar = true) :
    encodeChars w false = Except.ok (prefixJoin sep3 (w.map charPattern)) := by
  induction w with
  | nil => rfl
  | cons c rest ih =>
      rw [List.all_cons, Bool.and_eq_true] at h
      simp only [encodeChars, morseTable_eq_of_supported h.1, ih h.2,
        List.map_cons, prefixJoin, Bool.false_eq_true, ite_false,
        List.append_assoc]

/-- The character loop started with firstChar = true, on an all-supported
word, produces the three-space-joined patterns. -/
lemma encodeChars_true_ok {w : List Char} (h : w.all supportedChar = true) :
    encodeChars w true = Except.ok (joinSep sep3 (w.map charPattern)) := by
  cases w with
  | nil => rfl
  | cons c rest =>
      rw [List.all_cons, Bool.and_eq_true] at h
      simp only [encodeChars, morseTable_eq_of_supported h.1,
        encodeChars_false_ok h.2, List.map_cons, joinSep_cons, ite_true]

/-- The character loop fails exactly when the word has an unsupported
character. -/
lemma encodeChars_error_iff (w : List Char) (b : Bool) :
    (∃ e, encodeChars w b = Except.error e) ↔
      ∃ c ∈ w, supportedChar c = false := by
  induction w generalizing b with
  | nil => simp [encodeChars]
  | cons c rest ih =>
      constructor
      · rintro ⟨e, he⟩
        simp only [encodeChars] at he
        cases hm : morseTable (asciiToUpper c) with
        | none =>
            exact ⟨c, List.mem_cons_self c rest, by simp [supportedChar, hm]⟩
        | some p =>
            rw [hm] at he
            cases hr : encodeChars rest false with
            | error e2 =>
                obtain ⟨c2, hc2, hbad⟩ := (ih false).mp ⟨e2, hr⟩
                exact ⟨c2, List.mem_cons_of_mem c hc2, hbad⟩
            | ok t => rw [hr] at he; exact absurd he (by simp)
      · rintro ⟨c2, hc2, hbad⟩
        rcases List.mem_cons.mp hc2 with hceq | hcrest
        · subst hceq
          have hm : morseTable (asciiToUpper c2) = none := by
            unfold supportedChar at hbad
            cases hmm : morseTable (asciiToUpper c2) with
            | none => rfl
            | some p => rw [hmm] at hbad; simp at hbad
          exact ⟨asciiToUpper c2, by simp [encodeChars, hm]⟩
        · obtain ⟨e2, he2⟩ := (ih false).mpr ⟨c2, hcrest, hbad⟩
          cases hm : morseTable (asciiToUpper c) with
          | none => exact ⟨asciiToUpper c, by simp [encodeChars, hm]⟩
          | some p => exact ⟨e2, by simp [encodeChars, hm, he2]⟩

/-- An error of the character loop is the uppercased form of a character of
the word, and is itself unsupported. -/
lemma encodeChars_error_shape {w : List Char} {b : Bool} {e : Char}
    (he : encodeChars w b = Except.error e) :
    morseTable e = none ∧ ∃ c ∈ w, asciiToUpper c = e := by
  induction w generalizing b with
  | nil => exact absurd he (by simp [encodeChars])
  | cons c rest ih =>
      simp only [encodeChars] at he
      cases hm : morseTable (asciiToUpper c) with
      | none =>
          rw [hm] at he
          have hee : asciiToUpper c = e := by
            simpa using he
          refine ⟨hee ▸ hm, c, List.mem_cons_self c rest, hee⟩
      | some p =>
          rw [hm] at he
          cases hr : encodeChars rest false with
          | error e2 =>
              rw [hr] at he
              have hee : e2 = e := by simpa using he
              obtain ⟨h1, c2, hc2, h2⟩ := ih (hee ▸ hr)
              exact ⟨h1, c2, List.mem_cons_of_mem c hc2, h2⟩
          | ok t => rw [hr] at he; exact absurd he (by simp)

/-- A token that encodes successfully produces its spec-side encoding. -/
lemma encodeWord_ok {w : List Char} (h : wordEncodes w = true) :
    encodeWord w = Except.ok (specEncodeWord w) := by
  unfold encodeWord specEncodeWord
  cases hp : prosigns w with
  | some p => rfl
  | none =>
      have hall : w.all supportedChar = true := by
        unfold wordEncodes at h
        rw [hp] at h
        simpa using h
      exact encodeChars_true_ok hall

/-- Encoding a token fails exactly when it is not a prosign key and has an
unsupported character. -/
lemma encodeWord_error_iff (w : List Char) :
    (∃ e, encodeWord w = Except.error e) ↔
      (prosigns w = none ∧ ∃ c ∈ w, supportedChar c = false) := by
  unfold encodeWord
  cases hp : prosigns w with
  | some p => simp
  | none => simpa using encodeChars_error_iff w true

/-- An error of encodeWord comes from a non-prosign word, is the uppercased
form of one of its characters, and is itself unsupported. -/
lemma encodeWord_error_shape {w : List Char} {e : Char}
    (he : encodeWord w = Except.error e) :
    prosigns w = none ∧ morseTable e = none ∧ ∃ c ∈ w, asciiToUpper c = e := by
  unfold encodeWord at he
  cases hp : prosigns w with
  | some p => rw [hp] at he; exact absurd he (by simp)
  | none =>
      rw [hp] at he
      obtain ⟨h1, h2⟩ := encodeChars_error_shape he
      exact ⟨rfl, h1, h2⟩

/-- The word loop in non-first position, on all-encodable words, produces
the separator-prefixed word encodings. -/
lemma getMessageWords_false_ok {ts : List (List Char)}
    (h : ∀ w ∈ ts, wordEncodes w = true) :
    getMessageWords ts false =
      Except.ok (prefixJoin sep7 (ts.map specEncodeWord)) := by
  induction ts with
  | nil => rfl
  | cons w rest ih =>
      simp only [getMessageWords, encodeWord_ok (h w (List.mem_cons_self w rest)),
        ih (fun v hv => h v (List.mem_cons_of_mem w hv)), List.map_cons,
        prefixJoin, Bool.false_eq_true, ite_false, List.append_assoc]

/-- The word loop started with firstWord = true, on all-encodable words,
produces the seven-space-joined word encodings. -/
lemma getMessageWords_true_ok {ts : List (List Char)}
    (h : ∀ w ∈ ts, wordEncodes w = true) :
    getMessageWords ts true =
      Except.ok (joinSep sep7 (ts.map specEncodeWord)) := by
  cases ts with
  | nil => rfl
  | cons w rest =>
      simp only [getMessageWords, encodeWord_ok (h w (List.mem_cons_self w rest)),
        getMessageWords_false_ok (fun v hv => h v (List.mem_cons_of_mem w hv)),
        List.map_cons, joinSep_cons, ite_true]

/-- The word loop fails exactly when some word fails to encode. -/
lemma getMessageWords_error_iff (ts : List (List Char)) (b : Bool) :
    (∃ e, getMessageWords ts b = Except.error e) ↔
      ∃ w ∈ ts, ∃ e, encodeWord w = Except.error e := by
  induction ts generalizing b with
  | nil => simp [getMessageWords]
  | cons w rest ih =>
      constructor
      · rintro ⟨e, he⟩
        simp only [getMessageWords] at he
        cases hw : encodeWord w with
        | error e2 => exact ⟨w, List.mem_cons_self w rest, e2, hw⟩
        | ok p =>
            rw [hw] at he
            cases hr : getMessageWords rest false with
            | error e2 =>
                obtain ⟨v, hv, hev⟩ := (ih false).mp ⟨e2, hr⟩
                exact ⟨v, List.mem_cons_of_mem w hv, hev⟩
            | ok t => rw [hr] at he; exact absurd he (by simp)
      · rintro ⟨v, hv, e2, hev⟩
        rcases List.mem_cons.mp hv with hveq | hvrest
        · subst hveq
          exact ⟨e2, by simp [getMessageWords, hev]⟩
        · obtain ⟨e3, he3⟩ := (ih false).mpr ⟨v, hvrest, e2, hev⟩
          cases hw : encodeWord w with
          | error e4 => exact ⟨e4, by simp [getMessageWords, hw]⟩
          | ok p => exact ⟨e3, by simp [getMessageWords, hw, he3]⟩

/-- An error of the word loop is the error of the encoding of one of the
words. -/
lemma getMessageWords_error_shape {ts : List (List Char)} {b : Bool} {e : Char}
    (he : getMessageWords ts b = Except.error e) :
    ∃ w ∈ ts, encodeWord w = Except.error e := by
  induction ts generalizing b with
  | nil => exact absurd he (by simp [getMessageWords])
  | cons w rest ih =>
      simp only [getMessageWords] at he
      cases hw : encodeWord w with
      | error e2 =>
          rw [hw] at he
          have hee : e2 = e := by simpa using he
          exact ⟨w, List.mem_cons_self w rest, hee ▸ hw⟩
      | ok p =>
          rw [hw] at he
          cases hr : getMessageWords rest false with
          | error e2 =>
              rw [hr] at he
              have hee : e2 = e := by simpa using he
              obtain ⟨v, hv, hev⟩ := ih (hee ▸ hr)
              exact ⟨v, List.mem_cons_of_mem w hv, hev⟩
          | ok t => rw [hr] at he; exact absurd he (by simp)

/-- getNext past the end returns the sentinel and the unchanged state. -/
lemma getNext_past {g : MorseCodeGenerator} (h : g.words.length ≤ g.wordIndex) :
    getNext g = (Except.ok eomString, g) := by
  unfold getNext
  rw [dif_neg (by omega)]

/-- getNext before the end encodes the word at the cursor and advances the
cursor by one. -/
lemma getNext_at {g : MorseCodeGenerator} (h : g.wordIndex < g.words.length) :
    getNext g = (encodeWord (g.words.get ⟨g.wordIndex, h⟩),
      { g with wordIndex := g.wordIndex + 1 }) := by
  unfold getNext
  rw [dif_pos h]

/-- getNext never changes the message or the token list. -/
lemma getNext_frame (g : MorseCodeGenerator) :
    (getNext g).2.message = g.message ∧ (getNext g).2.words = g.words := by
  unfold getNext
  by_cases h : g.wordIndex < g.words.length
  · rw [dif_pos h]
    exact ⟨rfl, rfl⟩
  · rw [dif_neg h]
    exact ⟨rfl, rfl⟩

/-- Iterated getNext never changes the message or the token list. -/
lemma runGetNext_frame (g : MorseCodeGenerator) (n : Nat) :
    (runGetNext g n).2.message = g.message ∧
      (runGetNext g n).2.words = g.words := by
  induction n generalizing g with
  | zero => exact ⟨rfl, rfl⟩
  | succ n ih =>
      have h1 := getNext_frame g
      have h2 := ih (getNext g).2
      exact ⟨h2.1.trans h1.1, h2.2.trans h1.2⟩

/-- Past the end, any number of getNext calls returns only the sentinel and
leaves the state untouched. -/
lemma runGetNext_past {g : MorseCodeGenerator}
    (h : g.words.length ≤ g.wordIndex) (n : Nat) :
    runGetNext g n = (List.replicate n (Except.ok eomString), g) := by
  induction n with
  | zero => rfl
  | succ n ih =>
      simp only [runGetNext, getNext_past h, ih, List.replicate_succ]

/-- Running getNext once per remaining word consumes exactly the dropped
suffix of the token list, emitting the encoding of each word in order. -/
lemma runGetNext_drop :
    ∀ (ts : List (List Char)) (g : MorseCodeGenerator),
      g.words.drop g.wordIndex = ts →
      runGetNext g ts.length =
        (ts.map encodeWord, { g with wordIndex := g.wordIndex + ts.length }) := by
  intro ts
  induction ts with
  | nil => intro g _; rfl
  | cons t rest ih =>
      intro g hdrop
      have hlt : g.wordIndex < g.words.length := by
        have := congrArg List.length hdrop
        rw [List.length_drop] at this
        simp only [List.length_cons] at this
        omega
      have hshape := List.drop_eq_getElem_cons hlt
      rw [hdrop] at hshape
      have ht : t = g.words[g.wordIndex] :=
        ((List.cons.injEq ..).mp hshape.symm |>.1).symm
      have hrest : g.words.drop (g.wordIndex + 1) = rest :=
        (List.cons.injEq ..).mp hshape.symm |>.2
      have hget : g.words.get ⟨g.wordIndex, hlt⟩ = t := by
        rw [List.get_eq_getElem, ht]
      simp only [List.length_cons, runGetNext, getNext_at hlt, hget]
      have hrec := ih { g with wordIndex := g.wordIndex + 1 } (by simpa using hrest)
      rw [hrec]
      simp only [List.map_cons]
      refine Prod.ext rfl ?_
      simp only [MorseCodeGenerator.mk.injEq, true_and]
      omega

/-- Splitting an iterated run of getNext into two consecutive runs. -/
lemma runGetNext_add (g : MorseCodeGenerator) (m n : Nat) :
    runGetNext g (m + n) =
      ((runGetNext g m).1 ++ (runGetNext (runGetNext g m).2 n).1,
        (runGetNext (runGetNext g m).2 n).2) := by
  induction m generalizing g with
  | zero => simp [runGetNext]
  | succ m ih =>
      have hsucc : m + 1 + n = (m + n) + 1 := by omega
      rw [hsucc]
      simp only [runGetNext, ih (getNext g).2, List.cons_append]

/-- The cursor of a reachable state never exceeds the token count. -/
lemma reachable_inv {g : MorseCodeGenerator} (h : Reachable g) :
    g.wordIndex ≤ g.words.length := by
  induction h with
  | new => exact Nat.le_refl 0
  | set g msg _ _ => exact Nat.zero_le _
  | clear g _ _ => exact Nat.zero_le 0
  | next g _ ih =>
      unfold getNext
      by_cases hlt : g.wordIndex < g.words.length
      · rw [dif_pos hlt]
        exact hlt
      · rw [dif_neg hlt]
        exact ih

/-- A character is unsupported exactly when its uppercased form misses the
table. -/
lemma supportedChar_false_iff (c : Char) :
    supportedChar c = false ↔ morseTable (asciiToUpper c) = none := by
  unfold supportedChar
  cases hm : morseTable (asciiToUpper c) <;> simp

/-- The prosign table hits exactly on the three exact keys, giving their
exact patterns. -/
lemma prosigns_eq_some_iff (w p : List Char) :
    prosigns w = some p ↔
      ((w = ("AR".data) ∧ p = (". - . - .".data)) ∨
       (w = ("SK".data) ∧ p = (". . . - . -".data)) ∨
       (w = ("BT".data) ∧ p = ("- . . . -".data))) := by
  unfold prosigns
  split_ifs with h1 h2 h3
  · constructor
    · intro he
      exact Or.inl ⟨h1, (Option.some.inj he).symm⟩
    · rintro (⟨_, hp⟩ | ⟨hw, _⟩ | ⟨hw, _⟩)
      · rw [hp]
      · rw [h1] at hw; exact absurd hw (by decide)
      · rw [h1] at hw; exact absurd hw (by decide)
  · constructor
    · intro he
      exact Or.inr (Or.inl ⟨h2, (Option.some.inj he).symm⟩)
    · rintro (⟨hw, _⟩ | ⟨_, hp⟩ | ⟨hw, _⟩)
      · exact absurd hw h1
      · rw [hp]
      · rw [h2] at hw; exact absurd hw (by decide)
  · constructor
    · intro he
      exact Or.inr (Or.inr ⟨h3, (Option.some.inj he).symm⟩)
    · rintro (⟨hw, _⟩ | ⟨hw, _⟩ | ⟨_, hp⟩)
      · exact absurd hw h1
      · exact absurd hw h2
      · rw [hp]
  · simp [h1, h2, h3]

/-- Tokenizing a message consisting of two non-whitespace characters gives
one word, uppercased. -/
lemma tokenize_pair {c1 c2 : Char} (h1 : isWS c1 = false)
    (h2 : isWS c2 = false) :
    tokenizeMessage [c1, c2] = [[asciiToUpper c1, asciiToUpper c2]] := by
  simp [tokenizeMessage, tokenizeAux, h1, h2]

/-- A two-character word whose uppercasing is a prosign key is encoded by
getMessage as exactly the prosign pattern. -/
lemma getMessage_pair_prosign (g : MorseCodeGenerator) {c1 c2 : Char}
    {p : List Char} (h1 : isWS c1 = false) (h2 : isWS c2 = false)
    (hp : prosigns [asciiToUpper c1, asciiToUpper c2] = some p) :
    getMessage (setMessage g [c1, c2]) = Except.ok p := by
  show getMessageWords (tokenizeMessage [c1, c2]) true = Except.ok p
  rw [tokenize_pair h1 h2]
  simp [getMessageWords, encodeWord, hp]

/-- A character whose uppercased form equals a given uppercase letter is
not whitespace. -/
lemma not_ws_of_upper_eq {c X : Char} (hX : asciiToUpper c = X)
    (h65 : 65 ≤ X.toNat) : isWS c = false :=
  isWS_eq_false_of_upper (by rw [hX]; exact h65)

/-- Destructuring of a word whose uppercased form is a two-character list. -/
lemma map_upper_pair {w : List Char} {X Y : Char}
    (hmap : w.map asciiToUpper = [X, Y]) :
    ∃ c1 c2, w = [c1, c2] ∧ asciiToUpper c1 = X ∧ asciiToUpper c2 = Y := by
  cases w with
  | nil => simp at hmap
  | cons c1 w1 =>
      cases w1 with
      | nil => simp at hmap
      | cons c2 w2 =>
          cases w2 with
          | nil =>
              simp only [List.map_cons, List.map_nil, List.cons.injEq,
                and_true] at hmap
              exact ⟨c1, c2, rfl, hmap.1, hmap.2⟩
          | cons c3 w3 => simp at hmap

/-- Uppercasing a single-character message does not change its
tokenization. -/
lemma tokenize_single_upper (c : Char) :
    tokenizeMessage [c] = tokenizeMessage [asciiToUpper c] := by
  simp only [tokenizeMessage, tokenizeAux, isWS_asciiToUpper]
  by_cases hws : isWS c
  · simp [hws]
  · simp [hws, asciiToUpper_idem]

/-- C1: for every message whose tokens all encode successfully, getMessage
returns the tokens of the current message encoded in order, prosign keys as
their prosign patterns and other words as their character patterns joined
with exactly three spaces, the encoded words joined with exactly seven
spaces; a message with no tokens yields the empty string, and encoding a
one-character message is case-insensitive. -/
theorem morse_C1 (g : MorseCodeGenerator) (msg : List Char)
    (h : ∀ w ∈ tokenizeMessage msg, wordEncodes w = true) :
    getMessage (setMessage g msg) =
        Except.ok (joinSep sep7 ((tokenizeMessage msg).map specEncodeWord))
      ∧ (tokenizeMessage msg = [] → getMessage (setMessage g msg) = Except.ok [])
      ∧ (∀ c : Char,
          getMessage (setMessage g [c]) = getMessage (setMessage g [asciiToUpper c])) := by
  have hmain : getMessage (setMessage g msg) =
      Except.ok (joinSep sep7 ((tokenizeMessage msg).map specEncodeWord)) := by
    show getMessageWords (tokenizeMessage msg) true = _
    exact getMessageWords_true_ok h
  refine ⟨hmain, ?_, ?_⟩
  · intro hnil
    rw [hmain, hnil]
    rfl
  · intro c
    show getMessageWords (tokenizeMessage [c]) true =
      getMessageWords (tokenizeMessage [asciiToUpper c]) true
    rw [tokenize_single_upper c]

/-- C1 witness: a concrete all-supported message. -/
theorem morse_C1_witness :
    getMessage (setMessage newGenerator ("sos k".data)) =
      Except.ok (joinSep sep7 ((tokenizeMessage ("sos k".data)).map specEncodeWord)) :=
  (morse_C1 newGenerator ("sos k".data) (by decide)).1

/-- C2: getMessage and getNext fail with the unsupported-character error
exactly when a non-prosign word of the current message (for getNext: the
word at the cursor) has a character outside the table, and in both cases
the error value carries the offending uppercased character, itself outside
the table; an exhausted getNext never fails; setMessage is total in this
embedding, so it can raise no error, and the Except result type carries no
partial output in its error case. -/
theorem morse_C2 (g : MorseCodeGenerator) :
    ((∃ e, getMessage g = Except.error e) ↔
      ∃ w ∈ tokenizeMessage g.message, prosigns w = none ∧
        ∃ c ∈ w, morseTable (asciiToUpper c) = none)
  ∧ (∀ e, getMessage g = Except.error e →
      morseTable e = none ∧
        ∃ w ∈ tokenizeMessage g.message, prosigns w = none ∧
          ∃ c ∈ w, asciiToUpper c = e)
  ∧ (∀ h : g.wordIndex < g.words.length,
      ((∃ e, (getNext g).1 = Except.error e) ↔
        prosigns (g.words.get ⟨g.wordIndex, h⟩) = none ∧
          ∃ c ∈ g.words.get ⟨g.wordIndex, h⟩,
            morseTable (asciiToUpper c) = none))
  ∧ (∀ h : g.wordIndex < g.words.length, ∀ e,
      (getNext g).1 = Except.error e →
        morseTable e = none ∧
          prosigns (g.words.get ⟨g.wordIndex, h⟩) = none ∧
            ∃ c ∈ g.words.get ⟨g.wordIndex, h⟩, asciiToUpper c = e)
  ∧ (g.words.length ≤ g.wordIndex → ∀ e, (getNext g).1 ≠ Except.error e) := by
  refine ⟨?_, ?_, ?_, ?_, ?_⟩
  · rw [show getMessage g = getMessageWords (tokenizeMessage g.message) true from rfl,
      getMessageWords_error_iff]
    constructor
    · rintro ⟨w, hw, e, he⟩
      obtain ⟨hpro, c, hc, hbad⟩ := (encodeWord_error_iff w).mp ⟨e, he⟩
      exact ⟨w, hw, hpro, c, hc, (supportedChar_false_iff c).mp hbad⟩
    · rintro ⟨w, hw, hpro, c, hc, hnone⟩
      obtain ⟨e, he⟩ := (encodeWord_error_iff w).mpr
        ⟨hpro, c, hc, (supportedChar_false_iff c).mpr hnone⟩
      exact ⟨w, hw, e, he⟩
  · intro e he
    obtain ⟨w, hw, hew⟩ := getMessageWords_error_shape he
    obtain ⟨hpro, hnone, c, hc, hup⟩ := encodeWord_error_shape hew
    exact ⟨hnone, w, hw, hpro, c, hc, hup⟩
  · intro h
    rw [getNext_at h]
    constructor
    · rintro ⟨e, he⟩
      obtain ⟨hpro, c, hc, hbad⟩ := (encodeWord_error_iff _).mp ⟨e, he⟩
      exact ⟨hpro, c, hc, (supportedChar_false_iff c).mp hbad⟩
    · rintro ⟨hpro, c, hc, hnone⟩
      exact (encodeWord_error_iff _).mpr
        ⟨hpro, c, hc, (supportedChar_false_iff c).mpr hnone⟩
  · intro h e he
    rw [getNext_at h] at he
    obtain ⟨hpro, hnone, c, hc, hup⟩ := encodeWord_error_shape he
    exact ⟨hnone, hpro, c, hc, hup⟩
  · intro hle e
    rw [getNext_past hle]
    simp

/-- C2 witness: a concrete message with an unsupported character fails. -/
theorem morse_C2_witness :
    ∃ e, getMessage (setMessage newGenerator ("HELLO ~ WORLD".data)) =
      Except.error e :=
  (morse_C2 (setMessage newGenerator ("HELLO ~ WORLD".data))).1.mpr (by decide)

/-- C3: after a fresh setMessage of an all-encodable message, the first
getNext calls yield exactly one encoded word per token in order, the next
call yields the sentinel, and joining the per-word encodings with the
seven-space separator is exactly the getMessage result. -/
theorem morse_C3 (g0 : MorseCodeGenerator) (msg : List Char)
    (h : ∀ w ∈ tokenizeMessage msg, wordEncodes w = true) :
    (runGetNext (setMessage g0 msg) (tokenizeMessage msg).length).1 =
        (tokenizeMessage msg).map (fun w => Except.ok (specEncodeWord w))
  ∧ (runGetNext (setMessage g0 msg) ((tokenizeMessage msg).length + 1)).1 =
        (tokenizeMessage msg).map (fun w => Except.ok (specEncodeWord w)) ++
          [Except.ok eomString]
  ∧ getMessage (setMessage g0 msg) =
        Except.ok (joinSep sep7 ((tokenizeMessage msg).map specEncodeWord)) := by
  have hdrop : (setMessage g0 msg).words.drop (setMessage g0 msg).wordIndex =
      tokenizeMessage msg := List.drop_zero _
  have hrun := runGetNext_drop (tokenizeMessage msg) (setMessage g0 msg) hdrop
  have hmap : (tokenizeMessage msg).map encodeWord =
      (tokenizeMessage msg).map (fun w => Except.ok (specEncodeWord w)) :=
    List.map_congr_left (fun w hw => encodeWord_ok (h w hw))
  have hfst : (runGetNext (setMessage g0 msg) (tokenizeMessage msg).length).1 =
      (tokenizeMessage msg).map (fun w => Except.ok (specEncodeWord w)) := by
    rw [hrun]
    exact hmap
  refine ⟨hfst, ?_, ?_⟩
  · rw [runGetNext_add (setMessage g0 msg) (tokenizeMessage msg).length 1, hfst]
    have hstate := congrArg Prod.snd hrun
    have hpast : ((runGetNext (setMessage g0 msg)
        (tokenizeMessage msg).length).2).words.length ≤
        ((runGetNext (setMessage g0 msg) (tokenizeMessage msg).length).2).wordIndex := by
      rw [hstate]
      show (tokenizeMessage msg).length ≤ 0 + (tokenizeMessage msg).length
      omega
    rw [runGetNext_past hpast 1]
    rfl
  · show getMessageWords (tokenizeMessage msg) true = _
    exact getMessageWords_true_ok h

/-- C3 witness: incremental consumption of a concrete prosign message. -/
theorem morse_C3_witness :
    (runGetNext (setMessage newGenerator ("AR SK".data))
        (tokenizeMessage ("AR SK".data)).length).1 =
      (tokenizeMessage ("AR SK".data)).map (fun w => Except.ok (specEncodeWord w)) :=
  (morse_C3 newGenerator ("AR SK".data) (by decide)).1

/-- C4: in every reachable state the cursor is at most the token count; at
or past the end (in particular on an empty token list) getNext returns the
sentinel with the state unchanged, and any number of further calls keeps
returning the sentinel with the state unchanged. -/
theorem morse_C4 (g : MorseCodeGenerator) (h : Reachable g) :
    g.wordIndex ≤ g.words.length
  ∧ (g.words.length ≤ g.wordIndex →
      getNext g = (Except.ok eomString, g)
      ∧ ∀ n, runGetNext g n = (List.replicate n (Except.ok eomString), g)) :=
  ⟨reachable_inv h, fun hle => ⟨getNext_past hle, fun n => runGetNext_past hle n⟩⟩

/-- C4 witness: the state reached by consuming a one-word message. -/
theorem morse_C4_witness :
    (getNext (setMessage newGenerator ("E".data))).2.wordIndex ≤
      (getNext (setMessage newGenerator ("E".data))).2.words.length :=
  (morse_C4 (getNext (setMessage newGenerator ("E".data))).2
    (Reachable.next _ (Reachable.set _ _ Reachable.new))).1

/-- C5 counterexample: on the message CQ AR DE K the claimed output string
(which drops the Q of CQ and the E of DE) is not what getMessage returns. -/
theorem morse_C5_counterexample :
    getMessage (setMessage newGenerator ("CQ AR DE K".data)) ≠
      Except.ok ("- . - .       . - . - .       - . .       - . -".data) := by
  decide

/-- C5 as amended: getMessage on CQ AR DE K returns the four words CQ, AR
(as a prosign), DE, K encoded and joined with seven-space word gaps, the
two-letter words CQ and DE carrying their three-space letter gaps. -/
theorem morse_C5 :
    getMessage (setMessage newGenerator ("CQ AR DE K".data)) =
      Except.ok ("- . - .   - - . -       . - . - .       - . .   .       - . -".data) := by
  decide

/-- C6: the prosign table hits exactly on the entire tokens AR, SK, BT with
their exact patterns, and words such as ARS and xAR are encoded character
by character instead. -/
theorem morse_C6 :
    (∀ w p : List Char, prosigns w = some p ↔
      ((w = ("AR".data) ∧ p = (". - . - .".data)) ∨
       (w = ("SK".data) ∧ p = (". . . - . -".data)) ∨
       (w = ("BT".data) ∧ p = ("- . . . -".data))))
  ∧ getMessage (setMessage newGenerator ("ARS".data)) =
      Except.ok (". -   . - .   . . .".data)
  ∧ getMessage (setMessage newGenerator ("xAR".data)) =
      Except.ok ("- . . -   . -   . - .".data) :=
  ⟨prosigns_eq_some_iff, by decide, by decide⟩

/-- C6 witness: the AR key of the prosign table. -/
theorem morse_C6_witness : prosigns ("AR".data) = some (". - . - .".data) :=
  (morse_C6.1 ("AR".data) (". - . - .".data)).mpr (Or.inl ⟨rfl, rfl⟩)

/-- C7: when getNext is called with the cursor strictly before the end, the
resulting state has the cursor advanced by one and is otherwise unchanged,
whatever the encoding result was, and the following call works on the
subsequent word. -/
theorem morse_C7 (g : MorseCodeGenerator) (h : g.wordIndex < g.words.length) :
    (getNext g).2 = { g with wordIndex := g.wordIndex + 1 }
  ∧ (∀ h2 : g.wordIndex + 1 < g.words.length,
      (getNext (getNext g).2).1 =
        encodeWord (g.words.get ⟨g.wordIndex + 1, h2⟩)) := by
  rw [getNext_at h]
  refine ⟨rfl, ?_⟩
  intro h2
  rw [getNext_at (g := { g with wordIndex := g.wordIndex + 1 }) h2]

/-- C7 witness: the failing word of a concrete message is consumed. -/
theorem morse_C7_witness :
    (getNext (setMessage newGenerator ("~ E".data))).2 =
        { setMessage newGenerator ("~ E".data) with
            wordIndex := (setMessage newGenerator ("~ E".data)).wordIndex + 1 }
      ∧ (getNext (setMessage newGenerator ("~ E".data))).1 = Except.error '~' :=
  ⟨(morse_C7 (setMessage newGenerator ("~ E".data)) (by decide)).1, by decide⟩

/-- C8: setMessage replaces the message with the input, sets the words to
the whitespace-split, uppercased, non-empty tokens of the input in input
order, and resets the cursor to 0, independently of the prior state; in
particular a setMessage after any number of getNext calls gives the same
state as from any other prior state, and no stored token is empty. -/
theorem morse_C8 (msg : List Char) :
    (∀ g, setMessage g msg =
      { message := msg, words := specTokenize msg, wordIndex := 0 })
  ∧ (∀ g1 g2, setMessage g1 msg = setMessage g2 msg)
  ∧ (∀ g n, setMessage ((runGetNext g n).2) msg = setMessage g msg)
  ∧ (∀ g, ∀ w ∈ (setMessage g msg).words, w ≠ []) := by
  refine ⟨?_, fun g1 g2 => rfl, fun g n => rfl, ?_⟩
  · intro g
    unfold setMessage
    rw [tokenizeMessage_eq_specTokenize]
  · intro g w hw
    have hw2 : w ∈ specTokenize msg := by
      rw [show (setMessage g msg).words = tokenizeMessage msg from rfl,
        tokenizeMessage_eq_specTokenize] at hw
      exact hw
    unfold specTokenize at hw2
    obtain ⟨v, hv, rfl⟩ := List.mem_map.mp hw2
    have hvne : v ≠ [] := by
      have := (List.mem_filter.mp hv).2
      simpa [List.isEmpty_eq_false] using this
    simpa using hvne

/-- C9: getMessage depends only on the stored message, so it returns the
same string whatever the cursor and stored words are, and in particular
after any number of getNext calls; its Lean type returns no state, which
embeds the const qualifier of the source member. -/
theorem morse_C9 (g : MorseCodeGenerator) (n : Nat) :
    getMessage ((runGetNext g n).2) = getMessage g
  ∧ (∀ ws i, getMessage { message := g.message, words := ws, wordIndex := i } =
      getMessage g) := by
  refine ⟨?_, fun ws i => rfl⟩
  show getMessageWords (tokenizeMessage (runGetNext g n).2.message) true = _
  rw [(runGetNext_frame g n).1]
  rfl

/-- C10: prosign matching is case-insensitive with respect to the raw
input, because tokenization uppercases every word before the lookup: every
whole-message word whose uppercasing is a prosign key is encoded as the
prosign pattern, and the lowercase inputs ar, sk, bt come out as the three
prosign patterns. -/
theorem morse_C10 :
    (∀ (g : MorseCodeGenerator) (w p : List Char),
      prosigns (w.map asciiToUpper) = some p →
        getMessage (setMessage g w) = Except.ok p)
  ∧ getMessage (setMessage newGenerator ("ar".data)) =
      Except.ok (". - . - .".data)
  ∧ getMessage (setMessage newGenerator ("sk".data)) =
      Except.ok (". . . - . -".data)
  ∧ getMessage (setMessage newGenerator ("bt".data)) =
      Except.ok ("- . . . -".data) := by
  refine ⟨?_, by decide, by decide, by decide⟩
  intro g w p hp
  rcases (prosigns_eq_some_iff _ _).mp hp with ⟨hw, hpv⟩ | ⟨hw, hpv⟩ | ⟨hw, hpv⟩
  · rw [show ("AR".data) = ['A', 'R'] from rfl] at hw
    obtain ⟨c1, c2, rfl, hu1, hu2⟩ := map_upper_pair hw
    have h1 := not_ws_of_upper_eq hu1 (by decide)
    have h2 := not_ws_of_upper_eq hu2 (by decide)
    refine getMessage_pair_prosign g h1 h2 ?_
    rw [hu1, hu2, hpv]
    decide
  · rw [show ("SK".data) = ['S', 'K'] from rfl] at hw
    obtain ⟨c1, c2, rfl, hu1, hu2⟩ := map_upper_pair hw
    have h1 := not_ws_of_upper_eq hu1 (by decide)
    have h2 := not_ws_of_upper_eq hu2 (by decide)
    refine getMessage_pair_prosign g h1 h2 ?_
    rw [hu1, hu2, hpv]
    decide
  · rw [show ("BT".data) = ['B', 'T'] from rfl] at hw
    obtain ⟨c1, c2, rfl, hu1, hu2⟩ := map_upper_pair hw
    have h1 := not_ws_of_upper_eq hu1 (by decide)
    have h2 := not_ws_of_upper_eq hu2 (by decide)
    refine getMessage_pair_prosign g h1 h2 ?_
    rw [hu1, hu2, hpv]
    decide

/-- C10 witness: a mixed-case prosign word. -/
theorem morse_C10_witness :
    getMessage (setMessage newGenerator ("Ar".data)) =
      Except.ok (". - . - .".data) :=
  morse_C10.1 newGenerator ("Ar".data) (". - . - .".data) (by decide)
